import Mathlib

/-!
Verification of the chapter-to-timeline reconciliation and overlap-merging
engine of the gopro-clip-extractor repository.

The Go source is shallowly embedded as follows.

* `time.Duration` (int64 nanoseconds) and `int64` millisecond offsets are
  modelled as `Int`; the one place the code performs an int64 multiplication
  that can overflow on parseable inputs —
  `time.Duration(startMs) * time.Millisecond` in the chapter parser — is
  modelled with two's-complement wrapping (`wrapInt64`).  `time.Time` values
  are modelled as `Int` nanoseconds of the day (the program only ever
  compares clock times and adds durations to them, which the additive model
  reproduces; the calendar date that `time.Date` attaches is irrelevant to
  every function modelled here).
* `float64` second values (video times converted by `Duration.Seconds()`,
  and the two padding parameters) are modelled as `ℚ`.  Every float
  computation replayed here is plain `+`, `-`, `/` and comparison on values
  derived from those inputs, so the rational model is the exact real
  arithmetic the code approximates.  To keep the model executable by the
  kernel, the arithmetic is expressed with `mkRat` (`Rat.add`/`Rat.sub` are
  irreducible); lemmas `ratAdd_eq`/`ratSub_eq`/`nsToSec_eq` restate them as
  ordinary field operations.
* Go's `map[string][]Chapter` is modelled as an association list holding one
  possible iteration order of the map; `range` over a Go map yields an
  unspecified order, which is why the merge function is analysed as a
  function of the listed order.
* `sort.Slice` (an unstable comparison sort with a strict `less`) is
  modelled as `List.insertionSort` with the corresponding non-strict key
  order, a deterministic refinement of the permutations `sort.Slice` may
  produce.
-/

namespace GoproClip

/-- Executable subtraction on `ℚ` (`Rat.sub` is irreducible, so the model
uses `mkRat`); `ratSub_eq` proves `ratSub a b = a - b`. -/
def ratSub (a b : ℚ) : ℚ := mkRat (a.num * b.den - b.num * a.den) (a.den * b.den)

/-- Executable addition on `ℚ`; `ratAdd_eq` proves `ratAdd a b = a + b`. -/
def ratAdd (a b : ℚ) : ℚ := mkRat (a.num * b.den + b.num * a.den) (a.den * b.den)

theorem ratSub_eq (a b : ℚ) : ratSub a b = a - b := by
  have ha : ((a.den : ℚ)) ≠ 0 := Nat.cast_ne_zero.mpr a.den_nz
  have hb : ((b.den : ℚ)) ≠ 0 := Nat.cast_ne_zero.mpr b.den_nz
  unfold ratSub
  rw [Rat.mkRat_eq_div]
  push_cast
  conv_rhs => rw [← Rat.num_div_den a, ← Rat.num_div_den b, div_sub_div _ _ ha hb]
  ring_nf

theorem ratAdd_eq (a b : ℚ) : ratAdd a b = a + b := by
  have ha : ((a.den : ℚ)) ≠ 0 := Nat.cast_ne_zero.mpr a.den_nz
  have hb : ((b.den : ℚ)) ≠ 0 := Nat.cast_ne_zero.mpr b.den_nz
  unfold ratAdd
  rw [Rat.mkRat_eq_div]
  push_cast
  conv_rhs => rw [← Rat.num_div_den a, ← Rat.num_div_den b, div_add_div _ _ ha hb]
  ring_nf

/-- `Chapter` (metadata/chapters.go): a single chapter/highlight marker.
`videoTime` is the `time.Duration` in nanoseconds, `clockTime` the
`time.Time` in nanoseconds of the day. -/
structure Chapter where
  number : Int
  startMs : Int
  videoTime : Int
  clockTime : Int
  globalOrder : Int
  period : String
deriving DecidableEq

/-- `ClipGroup` (overlap.go): a group of chapters extracted as one clip.
The human-readable `OverlapInfo` display string is the only field not
modelled (no claim concerns it). -/
structure ClipGroup where
  chapters : List Chapter
  startTime : ℚ
  endTime : ℚ
  duration : ℚ
  period : String
  primaryChapter : Chapter
  isOverlap : Bool
deriving DecidableEq

/-! ### Chapter marker parser (`ParseFFMetadata`) -/

/-- The whitespace set trimmed by Go's `strings.TrimSpace`, i.e. the runes
accepted by `unicode.IsSpace`: the Unicode White_Space property
(U+0009–U+000D, U+0020, U+0085, U+00A0, U+1680, U+2000–U+200A, U+2028,
U+2029, U+202F, U+205F, U+3000). -/
def isSpaceChar (c : Char) : Bool :=
  let n := c.toNat
  (9 ≤ n && n ≤ 13) || n == 32 || n == 133 || n == 160 || n == 5760 ||
    (8192 ≤ n && n ≤ 8202) || n == 8232 || n == 8233 || n == 8239 ||
    n == 8287 || n == 12288

/-- `strings.TrimSpace` on the character list of a line. -/
def trimSpace (cs : List Char) : List Char :=
  ((cs.dropWhile isSpaceChar).reverse.dropWhile isSpaceChar).reverse

/-- Greedy run of leading decimal digits, the text captured by `(\d+)`. -/
def leadingDigits : List Char → List Char
  | [] => []
  | c :: rest => if c.isDigit then c :: leadingDigits rest else []

/-- Numeric value of a digit string. -/
def digitsVal (cs : List Char) : Int :=
  cs.foldl (fun acc c => acc * 10 + (Int.ofNat (c.toNat - 48))) 0

/-- Largest `int64`. -/
def int64Max : Int := 9223372036854775807

/-- `strconv.ParseInt(s, 10, 64)` on a digit string: the numeric value,
clamped to `int64Max` (on range error Go returns `MaxInt64` together with an
error that `ParseFFMetadata` discards). -/
def parseIntClamp (cs : List Char) : Int := min (digitsVal cs) int64Max

/-- Two's-complement wrap of an unbounded integer into the `int64` range,
Go's semantics for overflowing signed multiplication. -/
def wrapInt64 (n : Int) : Int :=
  (n + 9223372036854775808) % 18446744073709551616 - 9223372036854775808

/-- One loop iteration of `ParseFFMetadata`: trim the line, match the
regular expression `^START=(\d+)` and return the captured offset. -/
def matchStartLine (line : String) : Option Int :=
  match trimSpace line.data with
  | 'S' :: 'T' :: 'A' :: 'R' :: 'T' :: '=' :: rest =>
    let ds := leadingDigits rest
    if ds.isEmpty then none else some (parseIntClamp ds)
  | _ => none

/-- The empty period string carried by freshly parsed chapters. -/
def noPeriod : String := ""

/-- Scanner loop of `ParseFFMetadata`: `n` is the value of `chapterNum`
before the current line.  A matching line appends a chapter with
`Number = chapterNum`, `StartMs` the parsed offset and
`VideoTime = Duration(startMs) * time.Millisecond` — an int64
multiplication that wraps when `startMs` exceeds 9223372036854 ms. -/
def chaptersFromLines : Nat → List String → List Chapter
  | _, [] => []
  | n, line :: rest =>
    match matchStartLine line with
    | some ms =>
      { number := Int.ofNat n + 1, startMs := ms,
        videoTime := wrapInt64 (ms * 1000000),
        clockTime := 0, globalOrder := 0, period := noPeriod }
        :: chaptersFromLines (n + 1) rest
    | none => chaptersFromLines n rest

/-- `ParseFFMetadata` (metadata/chapters.go), applied to the lines of a
readable metadata file (the `os.Open` I/O failure path is outside the
model). -/
def ParseFFMetadata (lines : List String) : List Chapter :=
  chaptersFromLines 0 lines

/-! ### Timecode parser (`ParseTimecodeToTime`) -/

/-- Value of a two-digit capture group. -/
def twoDigitVal (a b : Char) : Int :=
  Int.ofNat ((a.toNat - 48) * 10 + (b.toNat - 48))

/-- Try to match `(\d{2}):(\d{2}):(\d{2})[:;](\d{2})` at the head of the
character list, returning the four captured values. -/
def tcMatchAt (cs : List Char) : Option (Int × Int × Int × Int) :=
  match cs with
  | h1 :: h2 :: c1 :: m1 :: m2 :: c2 :: s1 :: s2 :: c3 :: f1 :: f2 :: _ =>
    if h1.isDigit && h2.isDigit && c1 == ':' && m1.isDigit && m2.isDigit
        && c2 == ':' && s1.isDigit && s2.isDigit && (c3 == ':' || c3 == ';')
        && f1.isDigit && f2.isDigit then
      some (twoDigitVal h1 h2, twoDigitVal m1 m2, twoDigitVal s1 s2, twoDigitVal f1 f2)
    else none
  | _ => none

/-- Leftmost match of the timecode pattern anywhere in the string
(`Regexp.FindStringSubmatch` is an unanchored search). -/
def tcFind : List Char → Option (Int × Int × Int × Int)
  | [] => none
  | c :: rest =>
    match tcMatchAt (c :: rest) with
    | some r => some r
    | none => tcFind rest

/-- `int(float64(frames) / 60.0 * 1000)`: frame count to milliseconds at the
nominal 60 fps.  Modelled as exact division truncated toward zero; for every
two-digit frame count 00–99 the IEEE-754 computation yields the same
integer. -/
def framesToMs (frames : Int) : Int := (frames * 1000) / 60

/-- Nanoseconds of the day of the `time.Time` built by
`time.Date(y, m, d, hours, minutes, seconds, ms*1e6, local)`; Go normalizes
out-of-range components additively, which this formula reproduces. -/
def anchorNs (hours minutes seconds ms : Int) : Int :=
  ((hours * 3600 + minutes * 60 + seconds) * 1000 + ms) * 1000000

/-- The `fmt.Errorf("invalid timecode format: %s", timecode)` message. -/
def invalidTimecodeMsg (timecode : String) : String :=
  "invalid timecode format: " ++ timecode

/-- `ParseTimecodeToTime` (metadata/chapters.go).  The Go function returns
the pair `(time.Time, error)`; the model returns `(Int, Option String)` with
the zero `time.Time` modelled as `0`. -/
def ParseTimecodeToTime (timecode : String) : Int × Option String :=
  match tcFind timecode.data with
  | none => (0, some (invalidTimecodeMsg timecode))
  | some (h, m, s, f) => (anchorNs h m s (framesToMs f), none)

/-- The `fmt.Errorf("failed to parse GoPro timecode: %w", err)` prefix. -/
def failedTimecodeMsg (e : String) : String :=
  "failed to parse GoPro timecode: " ++ e

/-- `MapChaptersToClockTime` (metadata/chapters.go): stamp every chapter
with `ClockTime = startTime.Add(ch.VideoTime)`. -/
def MapChaptersToClockTime (chapters : List Chapter) (goProTimecode : String) :
    List Chapter × Option String :=
  match ParseTimecodeToTime goProTimecode with
  | (_, some e) => ([], some (failedTimecodeMsg e))
  | (startTime, none) =>
    (chapters.map fun ch => { ch with clockTime := startTime + ch.videoTime }, none)

/-! ### Cross-segment merger (`MergeAndSortChapters`) -/

/-- Non-strict key order corresponding to the `sort.Slice` comparator
`allChapters[i].ClockTime.Before(allChapters[j].ClockTime)`. -/
def clockLe (c1 c2 : Chapter) : Prop := c1.clockTime ≤ c2.clockTime

instance : DecidableRel clockLe := fun c1 c2 => Int.decLe c1.clockTime c2.clockTime

instance : IsTotal Chapter clockLe := ⟨fun c1 c2 => Int.le_total c1.clockTime c2.clockTime⟩

instance : IsTrans Chapter clockLe := ⟨fun _ _ _ h1 h2 => Int.le_trans h1 h2⟩

/-- The collection loop of `MergeAndSortChapters`: flatten the buckets in
iteration order, overwriting `ch.Period` with the map key. -/
def collectChapters (periodChapters : List (String × List Chapter)) : List Chapter :=
  periodChapters.foldl
    (fun acc pc => acc ++ pc.2.map (fun ch => { ch with period := pc.1 })) []

/-- The `GlobalOrder` assignment loop: position `i` (0-based, starting from
the given counter) receives `GlobalOrder = i + 1`. -/
def assignGlobalOrders : Nat → List Chapter → List Chapter
  | _, [] => []
  | i, ch :: rest =>
    { ch with globalOrder := Int.ofNat i + 1 } :: assignGlobalOrders (i + 1) rest

/-- `MergeAndSortChapters` (metadata/chapters.go), as a function of one
iteration order of the `map[string][]Chapter` argument. -/
def MergeAndSortChapters (periodChapters : List (String × List Chapter)) : List Chapter :=
  assignGlobalOrders 0 (List.insertionSort clockLe (collectChapters periodChapters))

/-! ### Overlap detector (`DetectOverlappingChapters`, overlap.go) -/

/-- `maxFloat` (overlap.go). -/
def maxFloat (a b : ℚ) : ℚ := if a > b then a else b

/-- `Duration.Seconds()`: nanoseconds to (exact) seconds. -/
def nsToSec (ns : Int) : ℚ := mkRat ns 1000000000

theorem nsToSec_eq (ns : Int) : nsToSec ns = (ns : ℚ) / 1000000000 := by
  unfold nsToSec
  rw [Rat.mkRat_eq_div]
  push_cast
  rfl

/-- `ch.VideoTime.Seconds()`. -/
def chSeconds (ch : Chapter) : ℚ := nsToSec ch.videoTime

/-- `finalizeGroup` (overlap.go): set `Duration = EndTime - StartTime` (the
`OverlapInfo` display string it also fills is not modelled). -/
def finalizeGroup (group : ClipGroup) : ClipGroup :=
  { group with duration := ratSub group.endTime group.startTime }

/-- The fresh one-chapter group the sweep seeds for chapter `ch`. -/
def initGroup (ch : Chapter) (beforePadding afterPadding : ℚ) (period : String) : ClipGroup :=
  { chapters := [ch]
    startTime := maxFloat 0 (ratSub (chSeconds ch) beforePadding)
    endTime := ratAdd (chSeconds ch) afterPadding
    duration := 0
    period := period
    primaryChapter := ch
    isOverlap := false }

/-- The merge branch of the sweep: append `ch`, extend `EndTime`, flag the
overlap. -/
def mergeChapter (group : ClipGroup) (ch : Chapter) (afterPadding : ℚ) : ClipGroup :=
  { group with
      chapters := group.chapters ++ [ch]
      endTime := ratAdd (chSeconds ch) afterPadding
      isOverlap := true }

/-- The sweep loop of `buildOverlapGroups` over the remaining chapters,
carrying the current group.  `currentGroup.EndTime` is compared against
`maxFloat(0, ch.VideoTime.Seconds() - beforePadding)` with strict `<`. -/
def buildGroupsAux (beforePadding afterPadding : ℚ) (period : String) :
    ClipGroup → List Chapter → List ClipGroup
  | cur, [] => [finalizeGroup cur]
  | cur, ch :: rest =>
    if maxFloat 0 (ratSub (chSeconds ch) beforePadding) < cur.endTime then
      buildGroupsAux beforePadding afterPadding period
        (mergeChapter cur ch afterPadding) rest
    else
      finalizeGroup cur ::
        buildGroupsAux beforePadding afterPadding period
          (initGroup ch beforePadding afterPadding period) rest

/-- `buildOverlapGroups` (overlap.go), on the already sorted chapter list of
one period. -/
def buildOverlapGroups (sortedChapters : List Chapter)
    (beforePadding afterPadding : ℚ) (period : String) : List ClipGroup :=
  match sortedChapters with
  | [] => []
  | c0 :: rest =>
    buildGroupsAux beforePadding afterPadding period
      (initGroup c0 beforePadding afterPadding period) rest

/-- One step of the `periodChapters[ch.Period] = append(...)` loop on the
association-list view of the Go map. -/
def insertBucket : List (String × List Chapter) → Chapter → List (String × List Chapter)
  | [], ch => [(ch.period, [ch])]
  | (k, chs) :: rest, ch =>
    if k = ch.period then (k, chs ++ [ch]) :: rest
    else (k, chs) :: insertBucket rest ch

/-- The grouping-by-period map of `DetectOverlappingChapters`, listed in
first-appearance order (one canonical iteration order of the Go map; every
property proved about the output below is independent of that order). -/
def groupByPeriod (chapters : List Chapter) : List (String × List Chapter) :=
  chapters.foldl insertBucket []

/-- Non-strict key order for the `sort.Slice` comparator
`sorted[i].VideoTime < sorted[j].VideoTime`. -/
def vtLe (c1 c2 : Chapter) : Prop := c1.videoTime ≤ c2.videoTime

instance : DecidableRel vtLe := fun c1 c2 => Int.decLe c1.videoTime c2.videoTime

instance : IsTotal Chapter vtLe := ⟨fun c1 c2 => Int.le_total c1.videoTime c2.videoTime⟩

instance : IsTrans Chapter vtLe := ⟨fun _ _ _ h1 h2 => Int.le_trans h1 h2⟩

/-- Non-strict key order for the final `sort.Slice` comparator
`allGroups[i].PrimaryChapter.GlobalOrder < allGroups[j].PrimaryChapter.GlobalOrder`. -/
def goLe (g1 g2 : ClipGroup) : Prop :=
  g1.primaryChapter.globalOrder ≤ g2.primaryChapter.globalOrder

instance : DecidableRel goLe :=
  fun g1 g2 => Int.decLe g1.primaryChapter.globalOrder g2.primaryChapter.globalOrder

instance : IsTotal ClipGroup goLe :=
  ⟨fun g1 g2 => Int.le_total g1.primaryChapter.globalOrder g2.primaryChapter.globalOrder⟩

instance : IsTrans ClipGroup goLe := ⟨fun _ _ _ h1 h2 => Int.le_trans h1 h2⟩

/-- `DetectOverlappingChapters` (overlap.go). -/
def DetectOverlappingChapters (chapters : List Chapter)
    (beforePadding afterPadding : ℚ) : List ClipGroup :=
  match chapters with
  | [] => []
  | _ :: _ =>
    List.insertionSort goLe
      ((groupByPeriod chapters).foldl
        (fun acc pc =>
          acc ++ buildOverlapGroups (List.insertionSort vtLe pc.2)
            beforePadding afterPadding pc.1) [])

/-! ### Helper lemmas -/

theorem maxFloat_eq_max (a b : ℚ) : maxFloat a b = max a b := by
  unfold maxFloat
  rcases le_or_lt a b with h | h
  · rw [if_neg (not_lt.mpr h), max_eq_right h]
  · rw [if_pos h, max_eq_left h.le]

/-- The clamped padded start `max(0, ch.VideoTime.Seconds() - beforePadding)`
computed by the sweep. -/
def padStart (b : ℚ) (ch : Chapter) : ℚ := max 0 (chSeconds ch - b)

theorem maxFloat_ratSub_eq_padStart (b : ℚ) (ch : Chapter) :
    maxFloat 0 (ratSub (chSeconds ch) b) = padStart b ch := by
  rw [maxFloat_eq_max, ratSub_eq, padStart]

theorem padStart_nonneg (b : ℚ) (ch : Chapter) : 0 ≤ padStart b ch :=
  le_max_left 0 _

theorem chSeconds_mono {c1 c2 : Chapter} (h : c1.videoTime ≤ c2.videoTime) :
    chSeconds c1 ≤ chSeconds c2 := by
  unfold chSeconds
  rw [nsToSec_eq, nsToSec_eq]
  exact div_le_div_of_nonneg_right (by exact_mod_cast h) (by norm_num)

theorem padStart_mono {b : ℚ} {c1 c2 : Chapter} (h : c1.videoTime ≤ c2.videoTime) :
    padStart b c1 ≤ padStart b c2 :=
  max_le_max le_rfl (sub_le_sub_right (chSeconds_mono h) b)

theorem mem_of_head?_eq {α : Type _} {l : List α} {x : α} (h : l.head? = some x) :
    x ∈ l := by
  cases l with
  | nil => simp at h
  | cons y t => simp at h; simp [h]

theorem mem_of_getLast?_eq {α : Type _} {l : List α} {x : α} (h : l.getLast? = some x) :
    x ∈ l := by
  induction l with
  | nil => simp at h
  | cons y t ih =>
    cases t with
    | nil => simp at h; simp [h]
    | cons z t' =>
      rw [List.getLast?_cons_cons] at h
      exact List.mem_cons_of_mem y (ih h)

theorem head?_append_left {α : Type _} {l l' : List α} {x : α}
    (h : l.head? = some x) : (l ++ l').head? = some x := by
  cases l with
  | nil => simp at h
  | cons y t => simp at h ⊢; exact h

theorem getLast?_concat' {α : Type _} (l : List α) (x : α) :
    (l ++ [x]).getLast? = some x :=
  List.getLast?_concat l

/-- In a video-time-sorted chapter list the head is no later than the last
element. -/
theorem chain'_head_getLast {l : List Chapter} {x y : Chapter}
    (hc : List.Chain' vtLe l) (hx : l.head? = some x) (hy : l.getLast? = some y) :
    x.videoTime ≤ y.videoTime := by
  cases l with
  | nil => simp at hx
  | cons z t =>
    have hx' : z = x := by simpa using hx
    subst hx'
    have hp : List.Pairwise vtLe (z :: t) := List.chain'_iff_pairwise.mp hc
    have hym : y ∈ z :: t := mem_of_getLast?_eq hy
    rcases List.mem_cons.mp hym with h | h
    · subst h; exact le_refl _
    · exact (List.pairwise_cons.mp hp).1 y h

/-- A sorted head bounds every member of the list. -/
theorem chain'_head_le_mem {l : List Chapter} {x y : Chapter}
    (hc : List.Chain' vtLe (x :: l)) (hy : y ∈ x :: l) :
    x.videoTime ≤ y.videoTime := by
  have hp : List.Pairwise vtLe (x :: l) := List.chain'_iff_pairwise.mp hc
  rcases List.mem_cons.mp hy with h | h
  · subst h; exact le_refl _
  · exact (List.pairwise_cons.mp hp).1 y h

/-- Relation between consecutive chapters of one built group: they are
sorted by video time and the later one merged under the strict overlap
condition against the then-current group end. -/
def mergedAdj (b a : ℚ) (x y : Chapter) : Prop :=
  x.videoTime ≤ y.videoTime ∧ padStart b y < chSeconds x + a

/-- Structural invariant of a (running or finalized) group of the sweep. -/
structure GroupInv (b a : ℚ) (p : String) (g : ClipGroup) : Prop where
  primary_eq : g.chapters.head? = some g.primaryChapter
  last_end : ∃ last, g.chapters.getLast? = some last ∧ g.endTime = chSeconds last + a
  start_eq : g.startTime = padStart b g.primaryChapter
  chain : List.Chain' (mergedAdj b a) g.chapters
  period_eq : g.period = p
  overlap_eq : g.isOverlap = decide (2 ≤ g.chapters.length)

/-- Invariant of a finalized group: additionally `Duration` has been set. -/
def GroupFin (b a : ℚ) (p : String) (g : ClipGroup) : Prop :=
  GroupInv b a p g ∧ g.duration = g.endTime - g.startTime

/-- Separation of two groups listed in this order: the earlier group ends no
later than the later one starts; moreover, if the later group's primary
chapter is not after the earlier group's primary chapter in video time, the
reversed separation holds as well. -/
def SepRel (g1 g2 : ClipGroup) : Prop :=
  g1.endTime ≤ g2.startTime ∧
    (chSeconds g2.primaryChapter ≤ chSeconds g1.primaryChapter →
      g2.endTime ≤ g1.startTime)

/-- Chapters of all groups in output order. -/
def flatChapters : List ClipGroup → List Chapter
  | [] => []
  | g :: gs => g.chapters ++ flatChapters gs

theorem mem_flatChapters {gs : List ClipGroup} {g : ClipGroup} {c : Chapter}
    (hg : g ∈ gs) (hc : c ∈ g.chapters) : c ∈ flatChapters gs := by
  induction gs with
  | nil => simp at hg
  | cons g' gs' ih =>
    rw [flatChapters, List.mem_append]
    rcases List.mem_cons.mp hg with h | h
    · subst h; exact Or.inl hc
    · exact Or.inr (ih h)

theorem groupInv_initGroup (b a : ℚ) (p : String) (ch : Chapter) :
    GroupInv b a p (initGroup ch b a p) := by
  refine ⟨rfl, ⟨ch, rfl, ?_⟩, ?_, ?_, rfl, rfl⟩
  · show ratAdd (chSeconds ch) a = chSeconds ch + a
    exact ratAdd_eq _ _
  · show maxFloat 0 (ratSub (chSeconds ch) b) = padStart b ch
    exact maxFloat_ratSub_eq_padStart b ch
  · exact List.chain'_singleton ch

theorem groupInv_finalize {b a : ℚ} {p : String} {g : ClipGroup}
    (h : GroupInv b a p g) : GroupFin b a p (finalizeGroup g) := by
  refine ⟨⟨h.primary_eq, h.last_end, h.start_eq, h.chain, h.period_eq, h.overlap_eq⟩, ?_⟩
  show ratSub g.endTime g.startTime = g.endTime - g.startTime
  exact ratSub_eq _ _

theorem groupInv_merge {b a : ℚ} {p : String} {cur : ClipGroup} {ch : Chapter}
    (h : GroupInv b a p cur)
    (hvt : ∀ last, cur.chapters.getLast? = some last → last.videoTime ≤ ch.videoTime)
    (hcond : padStart b ch < cur.endTime) :
    GroupInv b a p (mergeChapter cur ch a) := by
  obtain ⟨last, hlast, hend⟩ := h.last_end
  have hne : cur.chapters ≠ [] := by
    intro hnil; rw [hnil] at hlast; simp at hlast
  refine ⟨?_, ⟨ch, ?_, ?_⟩, h.start_eq, ?_, h.period_eq, ?_⟩
  · show (cur.chapters ++ [ch]).head? = some cur.primaryChapter
    exact head?_append_left h.primary_eq
  · show (cur.chapters ++ [ch]).getLast? = some ch
    exact getLast?_concat' _ _
  · show ratAdd (chSeconds ch) a = chSeconds ch + a
    exact ratAdd_eq _ _
  · show List.Chain' (mergedAdj b a) (cur.chapters ++ [ch])
    rw [List.chain'_append]
    refine ⟨h.chain, List.chain'_singleton ch, ?_⟩
    intro x hx y hy
    rw [hlast] at hx
    simp at hx hy
    subst hx; subst hy
    refine ⟨hvt last hlast, ?_⟩
    rw [← hend]
    exact hcond
  · show true = decide (2 ≤ (cur.chapters ++ [ch]).length)
    have h1 : 1 ≤ cur.chapters.length := by
      cases hl : cur.chapters with
      | nil => exact absurd hl hne
      | cons _ _ => simp
    rw [List.length_append]
    simp only [List.length_singleton]
    rw [decide_eq_true (by omega : 2 ≤ cur.chapters.length + 1)]

theorem padStart_congr {b : ℚ} {x y : Chapter} (h : chSeconds x = chSeconds y) :
    padStart b x = padStart b y := by
  unfold padStart
  rw [h]

/-- Full structural description of the sweep loop: starting from a running
group satisfying the invariant and the not-yet-processed suffix (the whole
chapter sequence being sorted by video time), the loop returns a non-empty
list of finalized groups whose first group extends the running one in place,
whose chapters concatenate to exactly the processed chapters, that pairwise
satisfy the separation relation, and whose start times are all bounded below
by the running group's start time. -/
theorem buildGroupsAux_spec (b a : ℚ) (p : String) :
    ∀ (rest : List Chapter) (cur : ClipGroup),
      GroupInv b a p cur →
      List.Chain' vtLe (cur.chapters ++ rest) →
      ∃ g0 tl,
        buildGroupsAux b a p cur rest = g0 :: tl ∧
        g0.startTime = cur.startTime ∧
        g0.primaryChapter = cur.primaryChapter ∧
        (∀ g ∈ g0 :: tl, GroupFin b a p g) ∧
        flatChapters (g0 :: tl) = cur.chapters ++ rest ∧
        List.Pairwise SepRel (g0 :: tl) ∧
        (∀ g ∈ g0 :: tl, cur.startTime ≤ g.startTime) := by
  intro rest
  induction rest with
  | nil =>
    intro cur hinv _
    refine ⟨finalizeGroup cur, [], rfl, rfl, rfl, ?_, ?_, ?_, ?_⟩
    · intro g hg
      rcases List.mem_singleton.mp hg with rfl
      exact groupInv_finalize hinv
    · show (finalizeGroup cur).chapters ++ flatChapters [] = cur.chapters ++ []
      rfl
    · exact List.pairwise_singleton _ _
    · intro g hg
      rcases List.mem_singleton.mp hg with rfl
      exact le_refl _
  | cons ch rest ih =>
    intro cur hinv hsorted
    obtain ⟨lastc, hlastc, hendc⟩ := hinv.last_end
    have hsplit := List.chain'_append.mp hsorted
    have hlink : lastc.videoTime ≤ ch.videoTime :=
      hsplit.2.2 lastc hlastc ch rfl
    have hprimlast : cur.primaryChapter.videoTime ≤ lastc.videoTime :=
      chain'_head_getLast (List.Chain'.imp (fun _ _ h => h.1) hinv.chain)
        hinv.primary_eq hlastc
    by_cases hc : maxFloat 0 (ratSub (chSeconds ch) b) < cur.endTime
    · -- the chapter merges into the running group
      have hc' : padStart b ch < cur.endTime := by
        rwa [maxFloat_ratSub_eq_padStart] at hc
      have hvt : ∀ l, cur.chapters.getLast? = some l → l.videoTime ≤ ch.videoTime := by
        intro l hl
        rw [hlastc] at hl
        cases Option.some.inj hl
        exact hlink
      have hinv' : GroupInv b a p (mergeChapter cur ch a) :=
        groupInv_merge hinv hvt hc'
      have hsorted' : List.Chain' vtLe ((mergeChapter cur ch a).chapters ++ rest) := by
        show List.Chain' vtLe ((cur.chapters ++ [ch]) ++ rest)
        rw [List.append_assoc, List.singleton_append]
        exact hsorted
      obtain ⟨g0, tl, heq, hst, hpr, hfin, hflat, hpw, hbd⟩ :=
        ih (mergeChapter cur ch a) hinv' hsorted'
      refine ⟨g0, tl, ?_, hst, hpr, hfin, ?_, hpw, hbd⟩
      · show buildGroupsAux b a p cur (ch :: rest) = g0 :: tl
        simp only [buildGroupsAux]
        rw [if_pos hc]
        exact heq
      · rw [hflat]
        show (cur.chapters ++ [ch]) ++ rest = cur.chapters ++ ch :: rest
        rw [List.append_assoc, List.singleton_append]
    · -- the chapter starts a new group
      have hce : cur.endTime ≤ padStart b ch := by
        rw [← maxFloat_ratSub_eq_padStart]
        exact not_lt.mp hc
      have hinit := groupInv_initGroup b a p ch
      have hsorted'' : List.Chain' vtLe ((initGroup ch b a p).chapters ++ rest) := by
        show List.Chain' vtLe ([ch] ++ rest)
        rw [List.singleton_append]
        exact hsplit.2.1
      obtain ⟨g0', tl', heq', hst', hpr', hfin', hflat', hpw', hbd'⟩ :=
        ih (initGroup ch b a p) hinit hsorted''
      have hpr'ch : g0'.primaryChapter = ch := hpr'
      have hst'init : g0'.startTime = padStart b ch := by
        rw [hst']
        exact maxFloat_ratSub_eq_padStart b ch
      have hflat'' : flatChapters (g0' :: tl') = ch :: rest := by
        rw [hflat']
        show [ch] ++ rest = ch :: rest
        rw [List.singleton_append]
      have hcurstart : cur.startTime ≤ padStart b ch := by
        rw [hinv.start_eq]
        exact padStart_mono (le_trans hprimlast hlink)
      refine ⟨finalizeGroup cur, g0' :: tl', ?_, rfl, rfl, ?_, ?_, ?_, ?_⟩
      · show buildGroupsAux b a p cur (ch :: rest) = _
        simp only [buildGroupsAux]
        rw [if_neg hc, heq']
      · intro g hg
        rcases List.mem_cons.mp hg with rfl | hg'
        · exact groupInv_finalize hinv
        · exact hfin' g hg'
      · show (finalizeGroup cur).chapters ++ flatChapters (g0' :: tl') = cur.chapters ++ ch :: rest
        rw [hflat'']
        rfl
      · -- pairwise separation
        rw [List.pairwise_cons]
        refine ⟨?_, hpw'⟩
        intro g' hg'
        have hfing' := hfin' g' hg'
        have inv' := hfing'.1
        constructor
        · -- the closed group ends no later than any later group starts
          show (finalizeGroup cur).endTime ≤ g'.startTime
          have h1 : (finalizeGroup cur).endTime = cur.endTime := rfl
          rw [h1]
          refine le_trans hce (le_trans (le_of_eq ?_) (hbd' g' hg'))
          exact (maxFloat_ratSub_eq_padStart b ch).symm
        · -- the degenerate equal-video-time direction
          intro hsec
          have hsec' : chSeconds g'.primaryChapter ≤ chSeconds cur.primaryChapter := hsec
          have hpmem : g'.primaryChapter ∈ ch :: rest := by
            rw [← hflat'']
            exact mem_flatChapters hg' (mem_of_head?_eq inv'.primary_eq)
          have s1 : chSeconds cur.primaryChapter ≤ chSeconds lastc :=
            chSeconds_mono hprimlast
          have s2 : chSeconds lastc ≤ chSeconds ch := chSeconds_mono hlink
          have s3 : chSeconds ch ≤ chSeconds g'.primaryChapter :=
            chSeconds_mono (chain'_head_le_mem hsplit.2.1 hpmem)
          have e0 : chSeconds g'.primaryChapter = chSeconds cur.primaryChapter :=
            le_antisymm hsec' (le_trans (le_trans s1 s2) s3)
          have e1 : chSeconds ch = chSeconds cur.primaryChapter :=
            le_antisymm (le_trans s3 (le_of_eq e0)) (le_trans s1 s2)
          have e2 : chSeconds lastc = chSeconds ch :=
            le_antisymm s2 (le_trans (le_of_eq e1) s1)
          have hkey : chSeconds ch + a ≤ padStart b ch := by
            rw [hendc, e2] at hce
            exact hce
          show g'.endTime ≤ (finalizeGroup cur).startTime
          have hfs : (finalizeGroup cur).startTime = padStart b ch := by
            show cur.startTime = padStart b ch
            rw [hinv.start_eq]
            exact padStart_congr e1.symm
          rw [hfs]
          obtain ⟨last', hlast', hend'⟩ := inv'.last_end
          rcases List.mem_cons.mp hg' with rfl | htl'
          · -- the new group itself: it must be a singleton
            cases hcs : g'.chapters with
            | nil =>
              rw [hcs] at hlast'
              simp at hlast'
            | cons x0 t0 =>
              have hpe := inv'.primary_eq
              rw [hcs] at hpe
              have hx0 : x0 = ch := by
                have : x0 = g'.primaryChapter := by simpa using hpe
                rw [this, hpr'ch]
              cases t0 with
              | nil =>
                rw [hcs] at hlast'
                have hlx : last' = x0 := by simpa using hlast'.symm
                rw [hend', hlx, hx0]
                exact hkey
              | cons x1 t1 =>
                exfalso
                have hchain := inv'.chain
                rw [hcs] at hchain
                have hadj : mergedAdj b a x0 x1 :=
                  (List.chain'_cons.mp hchain).1
                have hx1mem : x1 ∈ ch :: rest := by
                  rw [← hflat'']
                  refine mem_flatChapters hg' ?_
                  rw [hcs]
                  exact List.mem_cons_of_mem x0 (List.mem_cons_self x1 t1)
                have hx1 : padStart b ch ≤ padStart b x1 :=
                  padStart_mono (chain'_head_le_mem hsplit.2.1 hx1mem)
                have hlt : padStart b x1 < chSeconds ch + a := by
                  have := hadj.2
                  rwa [hx0] at this
                exact absurd (lt_of_le_of_lt hx1 hlt)
                  (not_lt.mpr hkey)
          · -- a later group: reuse its separation from the new group
            have hsep := (List.pairwise_cons.mp hpw').1 g' htl'
            have hle : chSeconds g'.primaryChapter ≤ chSeconds g0'.primaryChapter := by
              rw [hpr'ch, e0, ← e1]
            have h2 := hsep.2 hle
            rwa [hst'init] at h2
      · -- start times are bounded below
        intro g hg
        rcases List.mem_cons.mp hg with rfl | hg'
        · exact le_refl _
        · refine le_trans hcurstart (le_trans (le_of_eq ?_) (hbd' g hg'))
          exact (maxFloat_ratSub_eq_padStart b ch).symm

/-- Structural description of `buildOverlapGroups` on a sorted chapter
list. -/
theorem buildOverlapGroups_spec (l : List Chapter) (b a : ℚ) (p : String)
    (hs : List.Chain' vtLe l) :
    (∀ g ∈ buildOverlapGroups l b a p, GroupFin b a p g) ∧
    flatChapters (buildOverlapGroups l b a p) = l ∧
    List.Pairwise SepRel (buildOverlapGroups l b a p) := by
  cases l with
  | nil =>
    refine ⟨?_, rfl, List.Pairwise.nil⟩
    intro g hg
    simp [buildOverlapGroups] at hg
  | cons c0 rest =>
    have hinit := groupInv_initGroup b a p c0
    have hsorted : List.Chain' vtLe ((initGroup c0 b a p).chapters ++ rest) := by
      show List.Chain' vtLe ([c0] ++ rest)
      rw [List.singleton_append]
      exact hs
    obtain ⟨g0, tl, heq, _, _, hfin, hflat, hpw, _⟩ :=
      buildGroupsAux_spec b a p rest (initGroup c0 b a p) hinit hsorted
    have hout : buildOverlapGroups (c0 :: rest) b a p = g0 :: tl := heq
    rw [hout]
    refine ⟨hfin, ?_, hpw⟩
    rw [hflat]
    show [c0] ++ rest = c0 :: rest
    rw [List.singleton_append]

/-! ### Bucketing lemmas (`groupByPeriod`) -/

/-- Concatenation of the images of a list-valued function, used to restate
append-accumulating `foldl` loops. -/
def concatMapB {α β : Type _} (f : α → List β) : List α → List β
  | [] => []
  | x :: l => f x ++ concatMapB f l

theorem foldl_append_eq {α β : Type _} (f : α → List β) :
    ∀ (l : List α) (acc : List β),
      l.foldl (fun acc x => acc ++ f x) acc = acc ++ concatMapB f l := by
  intro l
  induction l with
  | nil => intro acc; rw [List.foldl_nil, concatMapB, List.append_nil]
  | cons x l ih =>
    intro acc
    rw [List.foldl_cons, ih, concatMapB, List.append_assoc]

theorem mem_concatMapB {α β : Type _} {f : α → List β} {l : List α} {x : β} :
    x ∈ concatMapB f l ↔ ∃ y ∈ l, x ∈ f y := by
  induction l with
  | nil => simp [concatMapB]
  | cons z l ih =>
    rw [concatMapB, List.mem_append, ih]
    constructor
    · rintro (h | ⟨y, hy, hx⟩)
      · exact ⟨z, List.mem_cons_self z l, h⟩
      · exact ⟨y, List.mem_cons_of_mem z hy, hx⟩
    · rintro ⟨y, hy, hx⟩
      rcases List.mem_cons.mp hy with rfl | hy'
      · exact Or.inl hx
      · exact Or.inr ⟨y, hy', hx⟩

theorem concatMapB_perm_congr {α β : Type _} {f g : α → List β} :
    ∀ {l : List α}, (∀ x ∈ l, (f x).Perm (g x)) →
      (concatMapB f l).Perm (concatMapB g l) := by
  intro l
  induction l with
  | nil => intro _; exact List.Perm.refl _
  | cons x l ih =>
    intro h
    rw [concatMapB, concatMapB]
    exact (h x (List.mem_cons_self x l)).append
      (ih fun y hy => h y (List.mem_cons_of_mem x hy))

theorem insertBucket_flat_perm (bs : List (String × List Chapter)) (ch : Chapter) :
    (concatMapB (fun pc => pc.2) (insertBucket bs ch)).Perm
      (concatMapB (fun pc => pc.2) bs ++ [ch]) := by
  induction bs with
  | nil =>
    show ([ch] ++ []).Perm ([] ++ [ch])
    simp
  | cons kc rest ih =>
    obtain ⟨k, chs⟩ := kc
    by_cases hk : k = ch.period
    · rw [insertBucket, if_pos hk]
      show ((chs ++ [ch]) ++ concatMapB (fun pc => pc.2) rest).Perm
        ((chs ++ concatMapB (fun pc => pc.2) rest) ++ [ch])
      rw [List.append_assoc, List.append_assoc]
      exact List.Perm.append_left chs (List.perm_append_comm)
    · rw [insertBucket, if_neg hk]
      show (chs ++ concatMapB (fun pc => pc.2) (insertBucket rest ch)).Perm
        ((chs ++ concatMapB (fun pc => pc.2) rest) ++ [ch])
      rw [List.append_assoc]
      exact List.Perm.append_left chs ih

theorem groupByPeriod_flat_perm (l : List Chapter) :
    (concatMapB (fun pc => pc.2) (groupByPeriod l)).Perm l := by
  have haux : ∀ (l2 : List Chapter) (bs : List (String × List Chapter)),
      (concatMapB (fun pc => pc.2) (l2.foldl insertBucket bs)).Perm
        (concatMapB (fun pc => pc.2) bs ++ l2) := by
    intro l2
    induction l2 with
    | nil => intro bs; rw [List.foldl_nil, List.append_nil]
    | cons ch l2 ih =>
      intro bs
      rw [List.foldl_cons]
      refine (ih (insertBucket bs ch)).trans ?_
      have h1 := insertBucket_flat_perm bs ch
      refine (h1.append_right l2).trans ?_
      rw [List.append_assoc, List.singleton_append]
  simpa [concatMapB] using haux l []

theorem insertBucket_entries {L : List Chapter} {bs : List (String × List Chapter)}
    {ch : Chapter} (hch : ch ∈ L)
    (h1 : ∀ pc ∈ bs, ∀ c ∈ pc.2, c.period = pc.1 ∧ c ∈ L) :
    ∀ pc ∈ insertBucket bs ch, ∀ c ∈ pc.2, c.period = pc.1 ∧ c ∈ L := by
  induction bs with
  | nil =>
    intro pc hpc c hc
    rw [insertBucket] at hpc
    rcases List.mem_singleton.mp hpc with rfl
    rcases List.mem_singleton.mp hc with rfl
    exact ⟨rfl, hch⟩
  | cons kc rest ih =>
    obtain ⟨k, chs⟩ := kc
    intro pc hpc c hc
    by_cases hk : k = ch.period
    · rw [insertBucket, if_pos hk] at hpc
      rcases List.mem_cons.mp hpc with rfl | hpc'
      · rcases List.mem_append.mp hc with hc' | hc'
        · exact h1 (k, chs) (List.mem_cons_self _ _) c hc'
        · rcases List.mem_singleton.mp hc' with rfl
          exact ⟨hk.symm, hch⟩
      · exact h1 pc (List.mem_cons_of_mem _ hpc') c hc
    · rw [insertBucket, if_neg hk] at hpc
      rcases List.mem_cons.mp hpc with rfl | hpc'
      · exact h1 (k, chs) (List.mem_cons_self _ _) c hc
      · exact ih (fun pc' hpc' => h1 pc' (List.mem_cons_of_mem _ hpc')) pc hpc' c hc

theorem insertBucket_keys (bs : List (String × List Chapter)) (ch : Chapter) :
    (ch.period ∈ bs.map Prod.fst ∧
      (insertBucket bs ch).map Prod.fst = bs.map Prod.fst) ∨
    (ch.period ∉ bs.map Prod.fst ∧
      (insertBucket bs ch).map Prod.fst = bs.map Prod.fst ++ [ch.period]) := by
  induction bs with
  | nil =>
    right
    exact ⟨by simp, rfl⟩
  | cons kc rest ih =>
    obtain ⟨k, chs⟩ := kc
    by_cases hk : k = ch.period
    · left
      constructor
      · rw [List.map_cons]
        exact hk ▸ List.mem_cons_self _ _
      · rw [insertBucket, if_pos hk]
        rfl
    · rcases ih with ⟨hmem, hkeys⟩ | ⟨hmem, hkeys⟩
      · left
        constructor
        · rw [List.map_cons]
          exact List.mem_cons_of_mem _ hmem
        · rw [insertBucket, if_neg hk, List.map_cons, List.map_cons, hkeys]
      · right
        constructor
        · rw [List.map_cons, List.mem_cons]
          rintro (h | h)
          · exact hk h.symm
          · exact hmem h
        · rw [insertBucket, if_neg hk, List.map_cons, List.map_cons, hkeys,
            List.cons_append]

theorem insertBucket_keys_nodup {bs : List (String × List Chapter)} {ch : Chapter}
    (h : (bs.map Prod.fst).Nodup) :
    ((insertBucket bs ch).map Prod.fst).Nodup := by
  rcases insertBucket_keys bs ch with ⟨_, hkeys⟩ | ⟨hmem, hkeys⟩
  · rw [hkeys]; exact h
  · rw [hkeys]
    rw [List.nodup_append]
    exact ⟨h, List.nodup_singleton _, by
      intro x hx hx'
      rcases List.mem_singleton.mp hx' with rfl
      exact hmem hx⟩

theorem groupByPeriod_ok (l : List Chapter) :
    (∀ pc ∈ groupByPeriod l, ∀ c ∈ pc.2, c.period = pc.1 ∧ c ∈ l) ∧
    ((groupByPeriod l).map Prod.fst).Nodup := by
  have haux : ∀ (l2 : List Chapter) (bs : List (String × List Chapter)),
      (∀ c ∈ l2, c ∈ l) →
      (∀ pc ∈ bs, ∀ c ∈ pc.2, c.period = pc.1 ∧ c ∈ l) →
      (bs.map Prod.fst).Nodup →
      (∀ pc ∈ l2.foldl insertBucket bs, ∀ c ∈ pc.2, c.period = pc.1 ∧ c ∈ l) ∧
      ((l2.foldl insertBucket bs).map Prod.fst).Nodup := by
    intro l2
    induction l2 with
    | nil => intro bs _ h1 h2; exact ⟨h1, h2⟩
    | cons ch l2 ih =>
      intro bs hsub h1 h2
      rw [List.foldl_cons]
      exact ih (insertBucket bs ch)
        (fun c hc => hsub c (List.mem_cons_of_mem ch hc))
        (insertBucket_entries (hsub ch (List.mem_cons_self ch l2)) h1)
        (insertBucket_keys_nodup h2)
  exact haux l [] (fun c hc => hc) (by intro pc hpc; simp at hpc) List.nodup_nil

theorem nodup_keys_entry_eq {bs : List (String × List Chapter)}
    (h : (bs.map Prod.fst).Nodup) {k : String} {x y : List Chapter}
    (hx : (k, x) ∈ bs) (hy : (k, y) ∈ bs) : x = y := by
  induction bs with
  | nil => simp at hx
  | cons kc rest ih =>
    rw [List.map_cons, List.nodup_cons] at h
    rcases List.mem_cons.mp hx with hx' | hx' <;>
      rcases List.mem_cons.mp hy with hy' | hy'
    · rw [← hx'] at hy'
      exact (Prod.mk.injEq _ _ _ _).mp hy'.symm |>.2
    · exfalso
      apply h.1
      rw [← hx']
      exact List.mem_map.mpr ⟨(k, y), hy', rfl⟩
    · exfalso
      apply h.1
      rw [← hy']
      exact List.mem_map.mpr ⟨(k, x), hx', rfl⟩
    · exact ih h.2 hx' hy'

/-! ### `DetectOverlappingChapters` restated as a concatenation -/

theorem flatChapters_append (gs1 gs2 : List ClipGroup) :
    flatChapters (gs1 ++ gs2) = flatChapters gs1 ++ flatChapters gs2 := by
  induction gs1 with
  | nil => rfl
  | cons g gs ih => rw [List.cons_append, flatChapters, flatChapters, ih,
      List.append_assoc]

theorem flatChapters_perm {gs1 gs2 : List ClipGroup} (h : gs1.Perm gs2) :
    (flatChapters gs1).Perm (flatChapters gs2) := by
  induction h with
  | nil => exact List.Perm.refl _
  | cons x _ ih => exact ih.append_left x.chapters
  | swap x y l =>
    show (y.chapters ++ (x.chapters ++ flatChapters l)).Perm
      (x.chapters ++ (y.chapters ++ flatChapters l))
    rw [← List.append_assoc, ← List.append_assoc]
    exact List.Perm.append_right (flatChapters l) List.perm_append_comm
  | trans _ _ ih1 ih2 => exact ih1.trans ih2

theorem flatChapters_concatMapB {α : Type _} (f : α → List ClipGroup) :
    ∀ (l : List α),
      flatChapters (concatMapB f l) = concatMapB (fun x => flatChapters (f x)) l := by
  intro l
  induction l with
  | nil => rfl
  | cons x l ih => rw [concatMapB, concatMapB, flatChapters_append, ih]

theorem sum_group_lengths (gs : List ClipGroup) :
    (gs.map (fun g => g.chapters.length)).sum = (flatChapters gs).length := by
  induction gs with
  | nil => rfl
  | cons g gs ih =>
    rw [List.map_cons, List.sum_cons, flatChapters, List.length_append, ih]

/-- The per-bucket group list built by `DetectOverlappingChapters`. -/
def bucketGroups (b a : ℚ) (pc : String × List Chapter) : List ClipGroup :=
  buildOverlapGroups (List.insertionSort vtLe pc.2) b a pc.1

theorem detect_eq (chapters : List Chapter) (b a : ℚ) :
    DetectOverlappingChapters chapters b a =
      List.insertionSort goLe (concatMapB (bucketGroups b a) (groupByPeriod chapters)) := by
  cases chapters with
  | nil =>
    show ([] : List ClipGroup) = _
    rw [show groupByPeriod [] = [] from rfl]
    rfl
  | cons c l =>
    show List.insertionSort goLe _ = _
    exact congrArg (List.insertionSort goLe)
      ((foldl_append_eq (bucketGroups b a) (groupByPeriod (c :: l)) []).trans
        (List.nil_append _))

/-- The chapters of every bucket are sorted into a `Chain'`. -/
theorem bucket_chain (chs : List Chapter) :
    List.Chain' vtLe (List.insertionSort vtLe chs) :=
  List.chain'_iff_pairwise.mpr (List.sorted_insertionSort vtLe chs)

/-- Membership in the detector output, reduced to the per-bucket sweeps. -/
theorem mem_detect {chapters : List Chapter} {b a : ℚ} {g : ClipGroup} :
    g ∈ DetectOverlappingChapters chapters b a ↔
      ∃ pc ∈ groupByPeriod chapters, g ∈ bucketGroups b a pc := by
  rw [detect_eq, List.mem_insertionSort, mem_concatMapB]

/-! ### Lemmas on the cross-segment merger -/

/-- Erase the `globalOrder` field, the one field the numbering pass
overwrites. -/
def stripGlobal (c : Chapter) : Chapter := { c with globalOrder := 0 }

theorem assignGlobalOrders_length : ∀ (l : List Chapter) (i : Nat),
    (assignGlobalOrders i l).length = l.length := by
  intro l
  induction l with
  | nil => intro i; rfl
  | cons ch t ih =>
    intro i
    rw [assignGlobalOrders, List.length_cons, List.length_cons, ih]

theorem assignGlobalOrders_get? : ∀ (l : List Chapter) (i j : Nat),
    (assignGlobalOrders i l).get? j =
      (l.get? j).map (fun c => { c with globalOrder := Int.ofNat (i + j) + 1 }) := by
  intro l
  induction l with
  | nil => intro i j; rfl
  | cons ch t ih =>
    intro i j
    cases j with
    | zero => rfl
    | succ j' =>
      rw [assignGlobalOrders]
      show (assignGlobalOrders (i + 1) t).get? j' = _
      rw [ih (i + 1) j', show i + 1 + j' = i + (j' + 1) from by omega]
      rfl

theorem mem_assignGlobalOrders : ∀ {l : List Chapter} {i : Nat} {c : Chapter},
    c ∈ assignGlobalOrders i l → ∃ c' ∈ l, c = { c' with globalOrder := c.globalOrder } := by
  intro l
  induction l with
  | nil => intro i c hc; simp [assignGlobalOrders] at hc
  | cons ch t ih =>
    intro i c hc
    rcases List.mem_cons.mp hc with rfl | hc'
    · exact ⟨ch, List.mem_cons_self _ _, rfl⟩
    · obtain ⟨c', hc', heq⟩ := ih hc'
      exact ⟨c', List.mem_cons_of_mem _ hc', heq⟩

theorem assignGlobalOrders_map_strip : ∀ (l : List Chapter) (i : Nat),
    (assignGlobalOrders i l).map stripGlobal = l.map stripGlobal := by
  intro l
  induction l with
  | nil => intro i; rfl
  | cons ch t ih =>
    intro i
    rw [assignGlobalOrders, List.map_cons, List.map_cons, ih]
    rfl

theorem collectChapters_eq (l : List (String × List Chapter)) :
    collectChapters l =
      concatMapB (fun pc => pc.2.map (fun ch => { ch with period := pc.1 })) l :=
  (foldl_append_eq _ l []).trans (List.nil_append _)

theorem length_concatMapB {α β : Type _} (f : α → List β) :
    ∀ (l : List α), (concatMapB f l).length = (l.map (fun x => (f x).length)).sum := by
  intro l
  induction l with
  | nil => rfl
  | cons x l ih =>
    rw [concatMapB, List.length_append, List.map_cons, List.sum_cons, ih]

/-! ### Lemmas on the chapter marker parser -/

/-- Chapter values built from a list of captured offsets, numbering them
from the given counter. -/
def numberChapters : Nat → List Int → List Chapter
  | _, [] => []
  | n, ms :: rest =>
    { number := Int.ofNat n + 1, startMs := ms,
      videoTime := wrapInt64 (ms * 1000000),
      clockTime := 0, globalOrder := 0, period := noPeriod }
      :: numberChapters (n + 1) rest

theorem chaptersFromLines_eq : ∀ (lines : List String) (n : Nat),
    chaptersFromLines n lines = numberChapters n (lines.filterMap matchStartLine) := by
  intro lines
  induction lines with
  | nil => intro n; rfl
  | cons line rest ih =>
    intro n
    rw [chaptersFromLines, List.filterMap_cons]
    cases hm : matchStartLine line with
    | none => exact ih n
    | some ms => rw [numberChapters, ih (n + 1)]

theorem numberChapters_get? : ∀ (vals : List Int) (n i : Nat),
    (numberChapters n vals).get? i =
      (vals.get? i).map (fun ms =>
        { number := Int.ofNat (n + i) + 1, startMs := ms,
          videoTime := wrapInt64 (ms * 1000000),
          clockTime := 0, globalOrder := 0, period := noPeriod }) := by
  intro vals
  induction vals with
  | nil => intro n i; rfl
  | cons ms rest ih =>
    intro n i
    cases i with
    | zero => rfl
    | succ i' =>
      rw [numberChapters]
      show (numberChapters (n + 1) rest).get? i' = _
      rw [ih (n + 1) i', show n + 1 + i' = n + (i' + 1) from by omega]
      rfl

theorem numberChapters_length : ∀ (vals : List Int) (n : Nat),
    (numberChapters n vals).length = vals.length := by
  intro vals
  induction vals with
  | nil => intro n; rfl
  | cons ms rest ih =>
    intro n
    rw [numberChapters, List.length_cons, List.length_cons, ih]

/-! ### Lemmas on the timecode parser -/

/-- The spec's pattern predicate: some position of the input begins a
`(\d{2}):(\d{2}):(\d{2})[:;](\d{2})` match. -/
def hasTimecodePattern (s : String) : Bool :=
  (List.range (s.data.length + 1)).any (fun i => (tcMatchAt (s.data.drop i)).isSome)

theorem tcFind_none_iff : ∀ (cs : List Char),
    tcFind cs = none ↔ ∀ i, tcMatchAt (cs.drop i) = none := by
  intro cs
  induction cs with
  | nil =>
    constructor
    · intro _ i
      rw [List.drop_nil]
      rfl
    · intro _; rfl
  | cons c rest ih =>
    constructor
    · intro h i
      rw [tcFind] at h
      cases hm : tcMatchAt (c :: rest) with
      | some r => rw [hm] at h; exact absurd h (by simp)
      | none =>
        rw [hm] at h
        cases i with
        | zero => exact hm
        | succ i' =>
          rw [List.drop_succ_cons]
          exact (ih.mp h) i'
    · intro h
      rw [tcFind]
      have h0 := h 0
      rw [List.drop_zero] at h0
      rw [h0]
      exact ih.mpr fun i => by
        have := h (i + 1)
        rwa [List.drop_succ_cons] at this

theorem hasTimecodePattern_false_iff (s : String) :
    hasTimecodePattern s = false ↔ tcFind s.data = none := by
  rw [tcFind_none_iff]
  unfold hasTimecodePattern
  constructor
  · intro h i
    rcases le_or_lt (s.data.length + 1) i with hge | hlt
    · rw [List.drop_eq_nil_of_le (by omega)]
      rfl
    · have := List.any_eq_false.mp h i (List.mem_range.mpr hlt)
      cases hmm : tcMatchAt (s.data.drop i) with
      | none => rfl
      | some r => exact absurd (by rw [hmm]; rfl) this
  · intro h
    apply List.any_eq_false.mpr
    intro i _
    rw [h i]
    simp

/-- Head-of-output description of the sweep loop: the first returned group
is the running group, possibly extended by further chapters. -/
theorem buildGroupsAux_head (b a : ℚ) (p : String) :
    ∀ (rest : List Chapter) (cur : ClipGroup),
      ∃ g0 tl, buildGroupsAux b a p cur rest = g0 :: tl ∧
        g0.primaryChapter = cur.primaryChapter ∧
        g0.startTime = cur.startTime ∧
        ∃ t, g0.chapters = cur.chapters ++ t := by
  intro rest
  induction rest with
  | nil =>
    intro cur
    exact ⟨finalizeGroup cur, [], rfl, rfl, rfl, [], (List.append_nil _).symm⟩
  | cons ch rest ih =>
    intro cur
    by_cases hc : maxFloat 0 (ratSub (chSeconds ch) b) < cur.endTime
    · obtain ⟨g0, tl, heq, hpr, hst, t, hch⟩ := ih (mergeChapter cur ch a)
      refine ⟨g0, tl, ?_, hpr, hst, [ch] ++ t, ?_⟩
      · simp only [buildGroupsAux]
        rw [if_pos hc]
        exact heq
      · rw [hch]
        show (cur.chapters ++ [ch]) ++ t = cur.chapters ++ ([ch] ++ t)
        rw [List.append_assoc]
    · refine ⟨finalizeGroup cur, buildGroupsAux b a p (initGroup ch b a p) rest,
        ?_, rfl, rfl, [], (List.append_nil _).symm⟩
      simp only [buildGroupsAux]
      rw [if_neg hc]

/-! ### Concrete data used by witnesses and counterexamples -/

def pP : String := "P"

def pA : String := "A"

def pB : String := "B"

/-- A chapter at video time 10 s. -/
def wchA : Chapter :=
  { number := 1, startMs := 10000, videoTime := 10000000000, clockTime := 0,
    globalOrder := 1, period := pP }

/-- A chapter at video time 70 s. -/
def wchB : Chapter :=
  { number := 2, startMs := 70000, videoTime := 70000000000, clockTime := 0,
    globalOrder := 2, period := pP }

/-- A chapter at video time 20 s. -/
def wchC : Chapter :=
  { number := 2, startMs := 20000, videoTime := 20000000000, clockTime := 0,
    globalOrder := 2, period := pP }

/-- A chapter at video time 3 s. -/
def wch3 : Chapter :=
  { number := 1, startMs := 3000, videoTime := 3000000000, clockTime := 0,
    globalOrder := 1, period := pP }

/-- A chapter used for clock-time ties. -/
def tieChapter : Chapter :=
  { number := 1, startMs := 0, videoTime := 0, clockTime := 100,
    globalOrder := 0, period := pP }

/-- The group produced for `wchA` with paddings 8 and 2. -/
def wg1 : ClipGroup :=
  { chapters := [wchA], startTime := 2, endTime := 12, duration := 10,
    period := pP, primaryChapter := wchA, isOverlap := false }

/-- The group produced for `wchB` with paddings 8 and 2. -/
def wg2 : ClipGroup :=
  { chapters := [wchB], startTime := 62, endTime := 72, duration := 10,
    period := pP, primaryChapter := wchB, isOverlap := false }

/-- The group produced for `wch3` with paddings 8 and 0: the start clamps
to 0. -/
def wg3 : ClipGroup :=
  { chapters := [wch3], startTime := 0, endTime := 3, duration := 3,
    period := pP, primaryChapter := wch3, isOverlap := false }

/-! ### Claim theorems -/

/-- C1: for every chapter list and paddings `beforePad ≥ 0`, `afterPad ≥ 0`,
whenever the chapters' `globalOrder` values are consistent with ascending
`videoTime` within each segment, any two groups returned by
`DetectOverlappingChapters` that share the same segment name and satisfy
`g1.primaryChapter.globalOrder < g2.primaryChapter.globalOrder` also satisfy
`g1.endTime ≤ g2.startTime` — their extraction windows never overlap. -/
theorem claim1_no_overlap_same_segment (chapters : List Chapter) (b a : ℚ)
    (hb : 0 ≤ b) (ha : 0 ≤ a)
    (hcons : ∀ c1 ∈ chapters, ∀ c2 ∈ chapters, c1.period = c2.period →
      c1.videoTime < c2.videoTime → c1.globalOrder < c2.globalOrder)
    (g1 g2 : ClipGroup)
    (h1 : g1 ∈ DetectOverlappingChapters chapters b a)
    (h2 : g2 ∈ DetectOverlappingChapters chapters b a)
    (hp : g1.period = g2.period)
    (hgo : g1.primaryChapter.globalOrder < g2.primaryChapter.globalOrder) :
    g1.endTime ≤ g2.startTime := by
  obtain ⟨pc1, hpc1, hg1⟩ := mem_detect.mp h1
  obtain ⟨pc2, hpc2, hg2⟩ := mem_detect.mp h2
  obtain ⟨k1, chs1⟩ := pc1
  obtain ⟨k2, chs2⟩ := pc2
  have hspec1 := buildOverlapGroups_spec (List.insertionSort vtLe chs1) b a k1
    (bucket_chain chs1)
  have hspec2 := buildOverlapGroups_spec (List.insertionSort vtLe chs2) b a k2
    (bucket_chain chs2)
  have hper1 : g1.period = k1 := (hspec1.1 g1 hg1).1.period_eq
  have hper2 : g2.period = k2 := (hspec2.1 g2 hg2).1.period_eq
  have hk : k1 = k2 := by rw [← hper1, ← hper2, hp]
  subst hk
  have hchs : chs1 = chs2 :=
    nodup_keys_entry_eq (groupByPeriod_ok chapters).2 hpc1 hpc2
  subst hchs
  have hg1' : g1 ∈ buildOverlapGroups (List.insertionSort vtLe chs1) b a k1 := hg1
  have hg2' : g2 ∈ buildOverlapGroups (List.insertionSort vtLe chs1) b a k1 := hg2
  have hpw := hspec1.2.2
  have hp1mem : g1.primaryChapter ∈ chs1 := by
    have hm := mem_of_head?_eq (hspec1.1 g1 hg1').1.primary_eq
    have hin : g1.primaryChapter ∈ List.insertionSort vtLe chs1 := by
      rw [← hspec1.2.1]
      exact mem_flatChapters hg1' hm
    exact (List.mem_insertionSort vtLe).mp hin
  have hp2mem : g2.primaryChapter ∈ chs1 := by
    have hm := mem_of_head?_eq (hspec1.1 g2 hg2').1.primary_eq
    have hin : g2.primaryChapter ∈ List.insertionSort vtLe chs1 := by
      rw [← hspec1.2.1]
      exact mem_flatChapters hg2' hm
    exact (List.mem_insertionSort vtLe).mp hin
  have hb1 := (groupByPeriod_ok chapters).1 (k1, chs1) hpc1 g1.primaryChapter hp1mem
  have hb2 := (groupByPeriod_ok chapters).1 (k1, chs1) hpc1 g2.primaryChapter hp2mem
  have hsecle : chSeconds g1.primaryChapter ≤ chSeconds g2.primaryChapter := by
    rcases le_or_lt g1.primaryChapter.videoTime g2.primaryChapter.videoTime with hvt | hvt
    · exact chSeconds_mono hvt
    · exfalso
      have hgo' := hcons g2.primaryChapter hb2.2 g1.primaryChapter hb1.2
        (by rw [hb2.1, hb1.1]) hvt
      exact absurd hgo (not_lt.mpr hgo'.le)
  obtain ⟨i, hi⟩ := List.mem_iff_get.mp hg1'
  obtain ⟨j, hj⟩ := List.mem_iff_get.mp hg2'
  rcases lt_trichotomy (i : ℕ) (j : ℕ) with hij | hij | hij
  · have hsep := List.pairwise_iff_get.mp hpw i j hij
    rw [hi, hj] at hsep
    exact hsep.1
  · have hfi : i = j := Fin.ext hij
    rw [hfi, hj] at hi
    rw [hi] at hgo
    exact absurd hgo (lt_irrefl _)
  · have hsep := List.pairwise_iff_get.mp hpw j i hij
    rw [hi, hj] at hsep
    exact hsep.2 hsecle

/-- Witness for C1 on the concrete two-chapter scenario of the spec. -/
theorem claim1_witness :
    ((0 : ℚ) ≤ 8 ∧ (0 : ℚ) ≤ 2 ∧
      wg1 ∈ DetectOverlappingChapters [wchA, wchB] 8 2 ∧
      wg2 ∈ DetectOverlappingChapters [wchA, wchB] 8 2 ∧
      wg1.period = wg2.period ∧
      wg1.primaryChapter.globalOrder < wg2.primaryChapter.globalOrder) ∧
    wg1.endTime ≤ wg2.startTime :=
  ⟨⟨by decide, by decide, by decide, by decide, by decide, by decide⟩,
    claim1_no_overlap_same_segment [wchA, wchB] 8 2 (by decide) (by decide)
      (by decide) wg1 wg2 (by decide) (by decide) (by decide) (by decide)⟩

/-- C2: in the overlap sweep, a subsequent chapter merges into the current
group exactly when `max(0, ch.videoTime - beforePad)` is strictly below the
running `endTime`; when the padded start exactly equals the running end the
chapter never merges: the current group is finalized unchanged and the
chapter becomes the primary chapter of a new group. -/
theorem claim2_strict_merge_boundary (b a : ℚ) (p : String) (cur : ClipGroup)
    (ch : Chapter) (rest : List Chapter) (hch : ch ∉ cur.chapters) :
    ∃ g0 tl, buildGroupsAux b a p cur (ch :: rest) = g0 :: tl ∧
      (ch ∈ g0.chapters ↔ maxFloat 0 (ratSub (chSeconds ch) b) < cur.endTime) ∧
      (maxFloat 0 (ratSub (chSeconds ch) b) = cur.endTime →
        g0 = finalizeGroup cur ∧
        ∃ g1 tl', tl = g1 :: tl' ∧ g1.primaryChapter = ch) := by
  by_cases hc : maxFloat 0 (ratSub (chSeconds ch) b) < cur.endTime
  · obtain ⟨g0, tl, heq, _, _, t, hchs⟩ :=
      buildGroupsAux_head b a p rest (mergeChapter cur ch a)
    refine ⟨g0, tl, ?_, ?_, ?_⟩
    · simp only [buildGroupsAux]
      rw [if_pos hc]
      exact heq
    · constructor
      · intro _
        exact hc
      · intro _
        rw [hchs]
        show ch ∈ (cur.chapters ++ [ch]) ++ t
        simp
    · intro heqc
      rw [heqc] at hc
      exact absurd hc (lt_irrefl _)
  · obtain ⟨g1, tl', heq', hpr', _, _⟩ :=
      buildGroupsAux_head b a p rest (initGroup ch b a p)
    refine ⟨finalizeGroup cur, g1 :: tl', ?_, ?_, ?_⟩
    · simp only [buildGroupsAux]
      rw [if_neg hc, heq']
    · constructor
      · intro hmem
        exact absurd hmem hch
      · intro hlt
        exact absurd hlt hc
    · intro _
      exact ⟨rfl, g1, tl', rfl, hpr'⟩

/-- Witness for C2: a chapter at 20 s whose padded start `20 - 8 = 12`
exactly equals the running end `10 + 2 = 12` starts a new group. -/
theorem claim2_witness :
    wchC ∉ (initGroup wchA 8 2 pP).chapters ∧
    (∃ g0 tl, buildGroupsAux 8 2 pP (initGroup wchA 8 2 pP) (wchC :: []) = g0 :: tl ∧
      (wchC ∈ g0.chapters ↔
        maxFloat 0 (ratSub (chSeconds wchC) 8) < (initGroup wchA 8 2 pP).endTime) ∧
      (maxFloat 0 (ratSub (chSeconds wchC) 8) = (initGroup wchA 8 2 pP).endTime →
        g0 = finalizeGroup (initGroup wchA 8 2 pP) ∧
        ∃ g1 tl', tl = g1 :: tl' ∧ g1.primaryChapter = wchC)) :=
  ⟨by decide,
    claim2_strict_merge_boundary 8 2 pP (initGroup wchA 8 2 pP) wchC [] (by decide)⟩

/-- C3: the chapter lists of the groups returned by
`DetectOverlappingChapters` are a permutation of the input (no chapter lost
or duplicated), the group sizes sum to the input length, and every chapter
in a group carries the group's segment name — chapters of different
segments are never grouped together. -/
theorem claim3_partition_by_segment (chapters : List Chapter) (b a : ℚ) :
    (flatChapters (DetectOverlappingChapters chapters b a)).Perm chapters ∧
    ((DetectOverlappingChapters chapters b a).map (fun g => g.chapters.length)).sum
      = chapters.length ∧
    ∀ g ∈ DetectOverlappingChapters chapters b a, ∀ c ∈ g.chapters,
      c.period = g.period := by
  have hperm : (flatChapters (DetectOverlappingChapters chapters b a)).Perm chapters := by
    rw [detect_eq]
    refine (flatChapters_perm (List.perm_insertionSort goLe _)).trans ?_
    rw [flatChapters_concatMapB]
    refine (concatMapB_perm_congr ?_).trans (groupByPeriod_flat_perm chapters)
    intro pc _
    have hspec := buildOverlapGroups_spec (List.insertionSort vtLe pc.2) b a pc.1
      (bucket_chain pc.2)
    rw [show flatChapters (bucketGroups b a pc) = List.insertionSort vtLe pc.2
      from hspec.2.1]
    exact List.perm_insertionSort vtLe pc.2
  refine ⟨hperm, ?_, ?_⟩
  · rw [sum_group_lengths]
    exact hperm.length_eq
  · intro g hg c hc
    obtain ⟨pc, hpc, hgpc⟩ := mem_detect.mp hg
    have hspec := buildOverlapGroups_spec (List.insertionSort vtLe pc.2) b a pc.1
      (bucket_chain pc.2)
    have hfin := hspec.1 g hgpc
    have hcm : c ∈ List.insertionSort vtLe pc.2 := by
      rw [← hspec.2.1]
      exact mem_flatChapters hgpc hc
    have hcm' : c ∈ pc.2 := (List.mem_insertionSort vtLe).mp hcm
    have hok := (groupByPeriod_ok chapters).1 pc hpc c hcm'
    rw [hok.1, hfin.1.period_eq]

/-- Witness for C3's per-group segment-name conjunct at a concrete input. -/
theorem claim3_witness :
    (wg1 ∈ DetectOverlappingChapters [wchA] 8 2 ∧ wchA ∈ wg1.chapters) ∧
    wchA.period = wg1.period :=
  ⟨⟨by decide, by decide⟩,
    (claim3_partition_by_segment [wchA] 8 2).2.2 wg1 (by decide) wchA (by decide)⟩

/-- C9: every group returned by `DetectOverlappingChapters` with
`beforePad ≥ 0` and `afterPad ≥ 0` satisfies
`duration = endTime - startTime` exactly and `startTime ≥ 0`. -/
theorem claim9_duration_and_clamp (chapters : List Chapter) (b a : ℚ)
    (hb : 0 ≤ b) (ha : 0 ≤ a) (g : ClipGroup)
    (hg : g ∈ DetectOverlappingChapters chapters b a) :
    g.duration = g.endTime - g.startTime ∧ 0 ≤ g.startTime := by
  obtain ⟨pc, hpc, hgpc⟩ := mem_detect.mp hg
  have hspec := buildOverlapGroups_spec (List.insertionSort vtLe pc.2) b a pc.1
    (bucket_chain pc.2)
  have hfin := hspec.1 g hgpc
  refine ⟨hfin.2, ?_⟩
  rw [hfin.1.start_eq]
  exact padStart_nonneg b g.primaryChapter

/-- Witness for C9: a chapter at 3 s with `beforePad = 8` yields a group
whose start time clamps to `0`, not `-5`. -/
theorem claim9_witness :
    ((0 : ℚ) ≤ 8 ∧ (0 : ℚ) ≤ 0 ∧ wg3 ∈ DetectOverlappingChapters [wch3] 8 0) ∧
    (wg3.duration = wg3.endTime - wg3.startTime ∧ 0 ≤ wg3.startTime) ∧
    wg3.startTime = 0 :=
  ⟨⟨by decide, by decide, by decide⟩,
    claim9_duration_and_clamp [wch3] 8 0 (by decide) (by decide) wg3 (by decide),
    by decide⟩

/-- C4: `MergeAndSortChapters` (on any iteration order of the period map)
returns one flat sequence of all input chapters, sorted non-decreasing by
`clockTime`, with `globalOrder` assigned as the contiguous range `1..N` in
that sorted order. -/
theorem claim4_merge_sort_numbering (l : List (String × List Chapter)) :
    (MergeAndSortChapters l).length = (l.map (fun pc => pc.2.length)).sum ∧
    (∀ (i j : Nat) (ci cj : Chapter), i < j →
      (MergeAndSortChapters l).get? i = some ci →
      (MergeAndSortChapters l).get? j = some cj →
      ci.clockTime ≤ cj.clockTime) ∧
    (∀ (i : Nat) (ci : Chapter), (MergeAndSortChapters l).get? i = some ci →
      ci.globalOrder = Int.ofNat i + 1) ∧
    ((MergeAndSortChapters l).map stripGlobal).Perm
      ((collectChapters l).map stripGlobal) := by
  refine ⟨?_, ?_, ?_, ?_⟩
  · show (assignGlobalOrders 0 _).length = _
    rw [assignGlobalOrders_length, List.length_insertionSort, collectChapters_eq,
      length_concatMapB]
    congr 1
    apply List.map_congr_left
    intro pc _
    exact List.length_map _ _
  · intro i j ci cj hij hgi hgj
    have hgi' := hgi
    have hgj' := hgj
    rw [show MergeAndSortChapters l =
        assignGlobalOrders 0 (List.insertionSort clockLe (collectChapters l))
      from rfl, assignGlobalOrders_get?] at hgi' hgj'
    obtain ⟨c1, hc1, hc1e⟩ := Option.map_eq_some'.mp hgi'
    obtain ⟨c2, hc2, hc2e⟩ := Option.map_eq_some'.mp hgj'
    obtain ⟨hlt1, hget1⟩ := List.get?_eq_some.mp hc1
    obtain ⟨hlt2, hget2⟩ := List.get?_eq_some.mp hc2
    have hs : List.Pairwise clockLe (List.insertionSort clockLe (collectChapters l)) :=
      List.sorted_insertionSort clockLe (collectChapters l)
    have hrel := List.pairwise_iff_get.mp hs ⟨i, hlt1⟩ ⟨j, hlt2⟩ hij
    rw [hget1, hget2] at hrel
    rw [← hc1e, ← hc2e]
    exact hrel
  · intro i ci hgi
    rw [show MergeAndSortChapters l =
        assignGlobalOrders 0 (List.insertionSort clockLe (collectChapters l))
      from rfl, assignGlobalOrders_get?] at hgi
    obtain ⟨c1, _, hc1e⟩ := Option.map_eq_some'.mp hgi
    rw [← hc1e]
    show Int.ofNat (0 + i) + 1 = Int.ofNat i + 1
    rw [Nat.zero_add]
  · show ((assignGlobalOrders 0 _).map stripGlobal).Perm _
    rw [assignGlobalOrders_map_strip]
    exact (List.perm_insertionSort clockLe (collectChapters l)).map stripGlobal

/-- A chapter with the later clock time, for the C4 witness. -/
def ctA : Chapter :=
  { number := 1, startMs := 0, videoTime := 0, clockTime := 200,
    globalOrder := 0, period := pP }

/-- A chapter with the earlier clock time, for the C4 witness. -/
def ctB : Chapter :=
  { number := 1, startMs := 0, videoTime := 0, clockTime := 100,
    globalOrder := 0, period := pP }

/-- The C4 witness input: bucket `A` holds the later chapter. -/
def wl4 : List (String × List Chapter) := [(pA, [ctA]), (pB, [ctB])]

/-- First element of `MergeAndSortChapters wl4`. -/
def w40 : Chapter :=
  { number := 1, startMs := 0, videoTime := 0, clockTime := 100,
    globalOrder := 1, period := pB }

/-- Second element of `MergeAndSortChapters wl4`. -/
def w41 : Chapter :=
  { number := 1, startMs := 0, videoTime := 0, clockTime := 200,
    globalOrder := 2, period := pA }

/-- Witness for C4 on a two-bucket input whose clock order reverses the
bucket order. -/
theorem claim4_witness :
    ((0 : Nat) < 1 ∧ (MergeAndSortChapters wl4).get? 0 = some w40 ∧
      (MergeAndSortChapters wl4).get? 1 = some w41) ∧
    w40.clockTime ≤ w41.clockTime ∧ w41.globalOrder = Int.ofNat 1 + 1 :=
  ⟨⟨by decide, by decide, by decide⟩,
    (claim4_merge_sort_numbering wl4).2.1 0 1 w40 w41 (by decide) (by decide)
      (by decide),
    (claim4_merge_sort_numbering wl4).2.2.1 1 w41 (by decide)⟩

/-- C5 evidence: the two association lists below are the two iteration
orders of one and the same two-entry Go map (`Perm` of each other with
distinct keys), the two bucket chapters tie on `clockTime`, and
`MergeAndSortChapters` returns different sequences for the two orders.  Go
randomizes map iteration order, so on such an input two invocations on the
equal map can return different outputs: the function is not deterministic
in the sense of the claim. -/
theorem claim5_map_order_dependence :
    [(pA, [tieChapter]), (pB, [tieChapter])].Perm
      [(pB, [tieChapter]), (pA, [tieChapter])] ∧
    MergeAndSortChapters [(pA, [tieChapter]), (pB, [tieChapter])] ≠
      MergeAndSortChapters [(pB, [tieChapter]), (pA, [tieChapter])] :=
  ⟨by decide, by decide⟩

/-- The claim's line predicate, following the spec's words: the raw line
matches `^START=(\d+)` at its start, with no trimming. -/
def specLineMatchesStart (line : String) : Bool :=
  match line.data with
  | 'S' :: 'T' :: 'A' :: 'R' :: 'T' :: '=' :: rest => !(leadingDigits rest).isEmpty
  | _ => false

/-- The C6 counterexample line: leading whitespace before `START=`. -/
def wsLine : String := " START=5"

/-- The C6 counterexample line whose offset overflows the int64
nanosecond conversion: 10000000000000 ms · 10⁶ = 10¹⁹ ns > 2⁶³ − 1. -/
def bigLine : String := "START=10000000000000"

/-- Lines with out-of-order offsets, for C6's order conjunct. -/
def orderLines : List String := ["START=5", "START=3"]

/-- C6 counterexample, two divergences of the claim from the code on
concrete inputs.  First, the line `" START=5"` does not match
`^START=(\d+)` at the start of the line, yet `ParseFFMetadata` emits a
chapter for it, because the code trims whitespace before matching.
Second, on `"START=10000000000000"` the emitted chapter's `videoTime` is
the int64-wrapped −8446744073709551616 ns, not the claimed
`startOffsetMs` milliseconds (10¹⁹ ns). -/
theorem claim6_counterexample :
    (specLineMatchesStart wsLine = false ∧ (ParseFFMetadata [wsLine]).length = 1) ∧
    ((ParseFFMetadata [bigLine]).map (fun c => (c.startMs, c.videoTime)) =
        [(10000000000000, -8446744073709551616)] ∧
      ¬ ((10000000000000 : Int) * 1000000 = -8446744073709551616)) :=
  ⟨⟨by decide, by decide⟩, by decide, by decide⟩

/-- C6 (amended): `ParseFFMetadata` emits exactly one chapter per line
that, after trimming surrounding whitespace, matches `^START=(\d+)`, in the
lines' textual order, with `number` the 1-based encounter index, `startMs`
the parsed integer and `videoTime` equal to `startMs` milliseconds as an
int64 nanosecond duration, wrapping on overflow; other lines are ignored
and the output is not sorted by offset. -/
theorem claim6_trimmed_parse (lines : List String) :
    (ParseFFMetadata lines).length = (lines.filterMap matchStartLine).length ∧
    (∀ (i : Nat) (c : Chapter), (ParseFFMetadata lines).get? i = some c →
      ∃ ms, (lines.filterMap matchStartLine).get? i = some ms ∧
        c.number = Int.ofNat i + 1 ∧ c.startMs = ms ∧
        c.videoTime = wrapInt64 (ms * 1000000)) ∧
    (ParseFFMetadata orderLines).map (fun c => (c.number, c.startMs)) =
      [(1, 5), (2, 3)] := by
  have he : ParseFFMetadata lines = numberChapters 0 (lines.filterMap matchStartLine) :=
    chaptersFromLines_eq lines 0
  refine ⟨?_, ?_, by decide⟩
  · rw [he, numberChapters_length]
  · intro i c hgc
    rw [he, numberChapters_get? _ 0 i] at hgc
    obtain ⟨ms, hms, hmse⟩ := Option.map_eq_some'.mp hgc
    refine ⟨ms, hms, ?_, ?_, ?_⟩
    · rw [← hmse]
      show Int.ofNat (0 + i) + 1 = Int.ofNat i + 1
      rw [Nat.zero_add]
    · rw [← hmse]
    · rw [← hmse]

/-- The first chapter parsed from `orderLines`. -/
def w6 : Chapter :=
  { number := 1, startMs := 5, videoTime := 5000000, clockTime := 0,
    globalOrder := 0, period := noPeriod }

/-- Witness for C6 at the concrete `orderLines` input. -/
theorem claim6_witness :
    (ParseFFMetadata orderLines).get? 0 = some w6 ∧
    (∃ ms, (orderLines.filterMap matchStartLine).get? 0 = some ms ∧
      w6.number = Int.ofNat 0 + 1 ∧ w6.startMs = ms ∧
      w6.videoTime = wrapInt64 (ms * 1000000)) :=
  ⟨by decide, (claim6_trimmed_parse orderLines).2.1 0 w6 (by decide)⟩

/-- The C7 malformed timecode: frame separator and count missing. -/
def badTimecode : String := "11:49:22"

/-- C7: `ParseTimecodeToTime` returns the format error exactly when no
position of the input matches `HH:MM:SS` followed by `:` or `;` and a
two-digit frame count, and on failure it returns only the error together
with the zero time value — no partial result; in particular the input
`"11:49:22"` fails. -/
theorem claim7_format_error (s : String) :
    ((ParseTimecodeToTime s).2.isSome = true ↔ hasTimecodePattern s = false) ∧
    ((ParseTimecodeToTime s).2.isSome = true →
      ParseTimecodeToTime s = (0, some (invalidTimecodeMsg s))) ∧
    ParseTimecodeToTime badTimecode = (0, some (invalidTimecodeMsg badTimecode)) := by
  have hiff : (ParseTimecodeToTime s).2.isSome = true ↔ tcFind s.data = none := by
    unfold ParseTimecodeToTime
    cases htc : tcFind s.data with
    | none => simp
    | some r =>
      obtain ⟨h, m, sec, f⟩ := r
      simp
  have herr : (ParseTimecodeToTime s).2.isSome = true →
      ParseTimecodeToTime s = (0, some (invalidTimecodeMsg s)) := by
    intro hs
    have hnone := hiff.mp hs
    unfold ParseTimecodeToTime
    rw [hnone]
  refine ⟨?_, herr, by decide⟩
  rw [hiff, hasTimecodePattern_false_iff]

/-- Witness for C7 at the malformed timecode. -/
theorem claim7_witness :
    (ParseTimecodeToTime badTimecode).2.isSome = true ∧
    ParseTimecodeToTime badTimecode = (0, some (invalidTimecodeMsg badTimecode)) :=
  ⟨by decide, (claim7_format_error badTimecode).2.1 (by decide)⟩

/-- The spec's scenario-D timecode. -/
def goodTimecode : String := "11:49:22:30"

/-- The C8 counterexample timecode with frame count 01. -/
def frame1TC : String := "11:49:22:01"

/-- C8 counterexample: at frame count 01 the code's anchor carries a
sub-second fraction of 16 ms (the truncated `int(1/60*1000)`), which is not
`frames/60 = 1/60` seconds. -/
theorem claim8_counterexample :
    ParseTimecodeToTime frame1TC = (anchorNs 11 49 22 16, none) ∧
    framesToMs 1 = 16 ∧
    mkRat 16 1000 ≠ mkRat 1 60 :=
  ⟨by decide, by decide, by decide⟩

/-- C8 (amended): for every chapter list and timecode that parses, the
mapper succeeds and returns a list of the same length whose `i`-th element
equals the `i`-th input chapter in every field except `clockTime`, which is
set to `anchor + videoTime`, the anchor's sub-second fraction being the
frame count converted to whole milliseconds; for timecode `"11:49:22:30"`
the anchor time-of-day is `11:49:22.500`. -/
theorem claim8_clock_mapping (chapters : List Chapter) (tc : String) (anchor : Int)
    (h : ParseTimecodeToTime tc = (anchor, none)) :
    (MapChaptersToClockTime chapters tc).2 = none ∧
    (MapChaptersToClockTime chapters tc).1.length = chapters.length ∧
    (∀ (i : Nat) (c : Chapter), chapters.get? i = some c →
      (MapChaptersToClockTime chapters tc).1.get? i =
        some { c with clockTime := anchor + c.videoTime }) ∧
    ParseTimecodeToTime goodTimecode = (anchorNs 11 49 22 500, none) := by
  have hm : MapChaptersToClockTime chapters tc =
      (chapters.map fun ch => { ch with clockTime := anchor + ch.videoTime }, none) := by
    unfold MapChaptersToClockTime
    rw [h]
  refine ⟨?_, ?_, ?_, by decide⟩
  · rw [hm]
  · rw [hm]
    exact List.length_map _ _
  · intro i c hc
    rw [hm]
    show (chapters.map _).get? i = _
    rw [List.get?_map, hc]
    rfl

/-- Witness for C8 at the scenario-D timecode and a one-chapter list. -/
theorem claim8_witness :
    ParseTimecodeToTime goodTimecode = (anchorNs 11 49 22 500, none) ∧
    (MapChaptersToClockTime [wchA] goodTimecode).1.get? 0 =
      some { wchA with clockTime := anchorNs 11 49 22 500 + wchA.videoTime } :=
  ⟨by decide,
    (claim8_clock_mapping [wchA] goodTimecode (anchorNs 11 49 22 500)
      (by decide)).2.2.1 0 wchA (by decide)⟩

/-- C10: every chapter returned by `MergeAndSortChapters` arises from a
bucket chapter whose `period` field has been overwritten with the bucket's
map key (all other fields except the assigned `globalOrder` unchanged). -/
theorem claim10_period_overwrite (l : List (String × List Chapter)) (c : Chapter)
    (hc : c ∈ MergeAndSortChapters l) :
    ∃ p chs c0, (p, chs) ∈ l ∧ c0 ∈ chs ∧
      c = { c0 with period := p, globalOrder := c.globalOrder } := by
  obtain ⟨c', hc', heq⟩ := mem_assignGlobalOrders hc
  have hc'' : c' ∈ collectChapters l := (List.mem_insertionSort clockLe).mp hc'
  rw [collectChapters_eq] at hc''
  obtain ⟨pc, hpc, hmem⟩ := mem_concatMapB.mp hc''
  obtain ⟨c0, hc0, hc0eq⟩ := List.mem_map.mp hmem
  refine ⟨pc.1, pc.2, c0, ?_, hc0, ?_⟩
  · rw [Prod.mk.eta]
    exact hpc
  · rw [heq, ← hc0eq]

/-- The C10 witness input. -/
def wl10 : List (String × List Chapter) := [(pA, [tieChapter])]

/-- The single chapter of `MergeAndSortChapters wl10`. -/
def wc10 : Chapter :=
  { number := 1, startMs := 0, videoTime := 0, clockTime := 100,
    globalOrder := 1, period := pA }

/-- Witness for C10 at the one-bucket input. -/
theorem claim10_witness :
    wc10 ∈ MergeAndSortChapters wl10 ∧
    (∃ p chs c0, (p, chs) ∈ wl10 ∧ c0 ∈ chs ∧
      wc10 = { c0 with period := p, globalOrder := wc10.globalOrder }) :=
  ⟨by decide, claim10_period_overwrite wl10 wc10 (by decide)⟩

end GoproClip
